import Mathlib

/-!
Verification of the meowz Markdown-dialect parser against its specification.

The repository ships two parsing strategies:

* a Lark-grammar / transformer pipeline (src/meowz/grammar.py and
  src/meowz/parser.py), which the specification declares an out-of-scope
  alternate strategy ("not used by the reference behavior this spec targets");
* the canonical line-oriented recursive-descent engine (the module the test
  suite refers to as meowz.parser2), which the specification describes in
  detail in sections 2, 4, 5 and 6 but whose source file is not present in
  the repository snapshot.

Consequently the engine below is modelled from the specification text, while
the AST data model follows src/meowz/ast.py, and a separate small embedding
of the Lark grammar's header-line shape (for admonitions and tab headers)
follows src/meowz/grammar.py and the transformer in src/meowz/parser.py.

The engine can genuinely diverge: the block classifier dispatches any line
starting with one of the bullet markers to the bullet-list parser, whose
continuation test only recognizes a trimmed leading two-character marker
made of a dash and a space, so a line such as a star followed by text makes
the list parser consume zero lines and the document driver loops forever
(spec sections 4.2, 4.3 and the open question in section 9).  Divergence is
modelled with a fuel parameter: the top entry point supplies fuel
(number of lines plus one), which is proved sufficient for every input that
cannot reach that stall, and a run that exhausts fuel returns none.
-/

namespace Meowz

/-- Inline node, after src/meowz/ast.py: TextInline with a value, or
LinkInline with display text and url.  A sum type, as the data model
requires. -/
inductive Inline where
  | text (value : String) : Inline
  | link (text url : String) : Inline
  deriving Repr, DecidableEq

/-- Block-level AST node, after src/meowz/ast.py.  A ListItem is its list of
child blocks; a Tab is a pair of title and child blocks; Admonition fields
appear in the source order tag, title, blocks, foldable. -/
inductive Block where
  | heading (level : Nat) (inlines : List Inline) : Block
  | paragraph (inlines : List Inline) : Block
  | codeBlock (language : Option String) (content : String) : Block
  | bulletList (items : List (List Block)) : Block
  | quoteBlock (lines : List String) : Block
  | admonition (tag title : String) (blocks : List Block) (foldable : Bool) : Block
  | tabBlock (tabs : List (String × List Block)) : Block
  deriving Repr

/-- Document root node, after src/meowz/ast.py. -/
structure Document where
  blocks : List Block
  deriving Repr

/-- Whitespace characters recognized inside a line (space and tab). -/
def isWSChar (c : Char) : Bool :=
  c = ' ' || c = '\t'

/-- Drop leading whitespace of a line. -/
def trimL (l : List Char) : List Char :=
  l.dropWhile isWSChar

/-- Drop trailing whitespace of a line. -/
def trimR (l : List Char) : List Char :=
  (l.reverse.dropWhile isWSChar).reverse

/-- Trim whitespace on both ends of a line. -/
def trimBoth (l : List Char) : List Char :=
  trimR (trimL l)

/-- Modelled from the spec: blank lines are exactly those that are empty
after trimming (section 6). -/
def isBlankLine (l : List Char) : Bool :=
  l.all isWSChar

/-- Split a character sequence at newline characters; the result always has
one more part than there are newlines. -/
def splitOnNl : List Char → List (List Char)
  | [] => [[]]
  | c :: rest =>
    let ps := splitOnNl rest
    if c = '\n' then [] :: ps
    else
      match ps with
      | [] => [[c]]
      | p :: tl => (c :: p) :: tl

/-- Modelled from the spec: the input buffer is split into lines (section 6);
a trailing newline does not contribute a final empty line, matching the
line-splitting convention of the missing engine meowz/parser2.py. -/
def splitLines (cs : List Char) : List (List Char) :=
  let ps := splitOnNl cs
  if ps.getLast? = some [] then ps.dropLast else ps

/-- Join lines with a newline between consecutive lines. -/
def joinNl : List (List Char) → List Char
  | [] => []
  | [l] => l
  | l :: ls => l ++ '\n' :: joinNl ls

/-- Join logical text pieces with a single space between consecutive pieces. -/
def joinSp : List (List Char) → List Char
  | [] => []
  | [l] => l
  | l :: ls => l ++ ' ' :: joinSp ls

/-- Modelled from the spec: attempt to match one link pattern at the current
scan position (section 4.5): an opening bracket, display text up to the
first closing bracket, then an opening parenthesis, a url up to the first
closing parenthesis.  Returns display text, url and the remaining
characters. -/
def linkAt : List Char → Option (String × String × List Char)
  | '[' :: cs =>
    let t := cs.takeWhile (fun c => c ≠ ']')
    match cs.dropWhile (fun c => c ≠ ']') with
    | ']' :: '(' :: ds =>
      let u := ds.takeWhile (fun c => c ≠ ')')
      match ds.dropWhile (fun c => c ≠ ')') with
      | ')' :: es => some (String.mk t, String.mk u, es)
      | _ => none
    | _ => none
  | _ => none

/-- Modelled from the spec: left-to-right scan of the inline segmenter
(section 4.5), with fuel (always sufficient, since every step consumes at
least one character).  The accumulator holds pending plain text. -/
def segChars : Nat → List Char → List Char → List Inline
  | _, acc, [] =>
    if acc.isEmpty then [] else [Inline.text (String.mk acc)]
  | 0, acc, rest =>
    if (acc ++ rest).isEmpty then [] else [Inline.text (String.mk (acc ++ rest))]
  | fuel + 1, acc, c :: cs =>
    match linkAt (c :: cs) with
    | some (t, u, es) =>
      if acc.isEmpty then Inline.link t u :: segChars fuel [] es
      else Inline.text (String.mk acc) :: Inline.link t u :: segChars fuel [] es
    | none => segChars fuel (acc ++ [c]) cs

/-- Modelled from the spec: the inline segmenter (section 4.5): non-empty
residual text around non-overlapping eagerly matched link patterns becomes
Text spans; an input with no link pattern yields one Text span, an empty
input yields no span. -/
def segmentInline (l : List Char) : List Inline :=
  segChars l.length [] l

/-- Number of leading hash characters of a line. -/
def headingLevel (l : List Char) : Nat :=
  (l.takeWhile (fun c => c = '#')).length

/-- Modelled from the spec: heading classifier pattern (section 4.2): one to
six leading hash characters followed by whitespace. -/
def isHeadingLine (l : List Char) : Bool :=
  decide (1 ≤ headingLevel l) && decide (headingLevel l ≤ 6) &&
    (match l.drop (headingLevel l) with
     | c :: _ => isWSChar c
     | [] => false)

/-- Modelled from the spec: heading remainder handed to the inline segmenter
(section 4.3): the line with leading hashes and the following whitespace
stripped. -/
def headingRest (l : List Char) : List Char :=
  trimL (l.drop (headingLevel l))

/-- Modelled from the spec: a line closes a fenced code block when its
trimmed content starts with the closing fence (section 4.3). -/
def fenceClose (l : List Char) : Bool :=
  "```".data.isPrefixOf (trimL l)

/-- Modelled from the spec: optional language tag of a fence line
(section 4.3): fence content after the backticks, trimmed; empty means no
language. -/
def fenceLang (l : List Char) : Option String :=
  let t := trimBoth (l.drop 3)
  if t.isEmpty then none else some (String.mk t)

/-- Modelled from the spec: bullet-list classifier test (section 4.2): the
line starts with one of the bullet markers dash, plus, star. -/
def isBulletStart (l : List Char) : Bool :=
  match l with
  | c :: _ => c = '-' || c = '+' || c = '*'
  | [] => false

/-- Modelled from the spec: bullet-list continuation test (section 4.3): the
trimmed line starts with the two-character marker dash-space.  Deliberately
narrower than the classifier test (open question, section 9). -/
def isBulletItemLine (l : List Char) : Bool :=
  "- ".data.isPrefixOf (trimBoth l)

/-- Modelled from the spec: blocks of one list item (section 4.3): the
marker is stripped from the trimmed line and the remainder runs through the
inline segmenter, wrapped in a single Paragraph. -/
def bulletItemBlocks (l : List Char) : List Block :=
  [Block.paragraph (segmentInline ((trimBoth l).drop 2))]

/-- Modelled from the spec: quote-block continuation test (section 4.3): the
left-trimmed line starts with the quote marker. -/
def isQuoteLine (l : List Char) : Bool :=
  match trimL l with
  | '>' :: _ => true
  | _ => false

/-- Modelled from the spec: raw stored line of a quote block (section 4.3):
the leading quote marker and the whitespace following it are stripped and
the remainder is kept verbatim with no inline parsing. -/
def stripQuoteMarker (l : List Char) : List Char :=
  match trimL l with
  | '>' :: r => r.dropWhile isWSChar
  | r => r

/-- Modelled from the spec: admonition tag of a marker line (section 4.4):
the marker token itself, the first three characters of the line. -/
def admoTag (l : List Char) : String :=
  String.mk (l.take 3)

/-- Modelled from the spec: admonition title of a marker line (section 4.4):
the remainder after the marker token, trimmed; tag-only lines yield the
empty title. -/
def admoTitle (l : List Char) : String :=
  String.mk (trimBoth (l.drop 3))

/-- Modelled from the spec: admonition body collection (section 4.4 together
with scenario 5 of section 8): consume lines that begin with the
indentation prefix of four spaces or a single tab, stripping that prefix;
interior blank lines belong to the body as empty lines (scenario 5 places a
blank line between marker and body); stop at the first other line or at
end of input.  Returns the de-indented body and the remaining lines. -/
def takeIndentedBody : List (List Char) → List (List Char) × List (List Char)
  | [] => ([], [])
  | l :: ls =>
    if "    ".data.isPrefixOf l then
      let br := takeIndentedBody ls
      (l.drop 4 :: br.1, br.2)
    else if "\t".data.isPrefixOf l then
      let br := takeIndentedBody ls
      (l.drop 1 :: br.1, br.2)
    else if isBlankLine l then
      let br := takeIndentedBody ls
      ([] :: br.1, br.2)
    else ([], l :: ls)

/-- Modelled from the spec: the tab-group body scanner looks for the colon
delimiter token (open question, section 9): a delimiter line carrying a
title starts a new tab, a bare delimiter line ends the group. -/
def tabDelim (l : List Char) : Bool :=
  ":::".data.isPrefixOf l

/-- Title carried by a tab delimiter line: the remainder after the delimiter
token, trimmed. -/
def tabDelimTitle (l : List Char) : List Char :=
  trimBoth (l.drop 3)

/-- Modelled from the spec: the tab-group scanning loop (section 4.4) over
the lines after the opening delimiter line.  A delimiter line with a title
flushes the open tab and starts a new one; a bare delimiter line flushes and
terminates, consuming that line; any other line is accumulated into the open
tab's pending body (a line arriving while no tab is open has nowhere to go
and is discarded); end of input is an implicit close.  Returns the list of
regions (title with pending body lines) and the remaining lines. -/
def tabLoop : Option (List Char × List (List Char)) → List (List Char) →
    List (List Char × List (List Char)) × List (List Char)
  | cur, [] => (cur.toList, [])
  | cur, l :: ls =>
    if tabDelim l then
      if (tabDelimTitle l).isEmpty then (cur.toList, ls)
      else
        let tr := tabLoop (some (tabDelimTitle l, [])) ls
        (cur.toList ++ tr.1, tr.2)
    else
      match cur with
      | some (t, body) => tabLoop (some (t, body ++ [l])) ls
      | none => tabLoop none ls

/-- Modelled from the spec: tab-region isolation for a tab group, applied to
the lines following the consumed opening delimiter line (section 4.4). -/
def takeTabRegions (ls : List (List Char)) :
    List (List Char × List (List Char)) × List (List Char) :=
  tabLoop none ls

/-- Weight of a region list: each region counts its body lines plus one for
the delimiter line that opened it.  Used to bound the fuel consumed while
parsing the regions of one tab group. -/
def regionsWeight (rs : List (List Char × List (List Char))) : Nat :=
  rs.foldr (fun r acc => r.2.length + 1 + acc) 0

/-- Weight contributed by the open tab of the scanning loop: its pending
body lines plus one. -/
def curWeight : Option (List Char × List (List Char)) → Nat
  | none => 0
  | some p => p.2.length + 1

/-- Modelled from the spec: bullet marker followed by whitespace, one of the
paragraph termination patterns (section 4.3). -/
def isBulletWS (l : List Char) : Bool :=
  match l with
  | c :: d :: _ => (c = '-' || c = '+' || c = '*') && isWSChar d
  | _ => false

/-- Modelled from the spec: paragraph termination test (section 4.3): a
blank line, a code fence, a heading pattern, a bullet marker followed by
whitespace, a quote marker, either admonition marker, or the colon
delimiter. -/
def paragraphBreak (l : List Char) : Bool :=
  isBlankLine l || "```".data.isPrefixOf l || isHeadingLine l || isBulletWS l ||
    ">".data.isPrefixOf l || "!!!".data.isPrefixOf l || "???".data.isPrefixOf l ||
    ":::".data.isPrefixOf l

/-- Outcome of the block classifier: which parser the dispatcher selects. -/
inductive BlockKind where
  | blank | fence | heading | bullet | quote | admo | tab | para
  deriving Repr, DecidableEq

/-- Modelled from the spec: the block classifier (section 4.2), first
matching rule in the fixed priority order: blank, fenced code, heading,
bullet list, quote, admonition, tab group, and paragraph as the total
fallback. -/
def classify (l : List Char) : BlockKind :=
  if isBlankLine l then BlockKind.blank
  else if "```".data.isPrefixOf l then BlockKind.fence
  else if isHeadingLine l then BlockKind.heading
  else if isBulletStart l then BlockKind.bullet
  else if ">".data.isPrefixOf l then BlockKind.quote
  else if "!!!".data.isPrefixOf l || "???".data.isPrefixOf l then BlockKind.admo
  else if "===".data.isPrefixOf l then BlockKind.tab
  else BlockKind.para

mutual

/-- Modelled from the spec: the document driver of the missing canonical
engine meowz/parser2.py (sections 4.2 to 4.4): repeatedly classify the line
at the cursor and run the selected block parser, which consumes at least the
current line — except for the bullet-list parser, which consumes zero lines
whenever the dispatched line fails the narrower continuation test, making
the driver loop forever (section 9).  The fuel argument decreases at every
recursive call and models that divergence: none means the run was cut off,
and the initial fuel supplied by the entry point is proved sufficient
whenever no such stall is reachable. -/
def parseBlocksF : Nat → List (List Char) → Option (List Block)
  | 0, _ => none
  | _ + 1, [] => some []
  | fuel + 1, line :: rest =>
    match classify line with
    | BlockKind.blank => parseBlocksF fuel rest
    | BlockKind.fence =>
      let content := rest.takeWhile (fun l => !fenceClose l)
      let rest1 := (rest.dropWhile (fun l => !fenceClose l)).tail
      (parseBlocksF fuel rest1).map fun bs =>
        Block.codeBlock (fenceLang line) (String.mk (joinNl content)) :: bs
    | BlockKind.heading =>
      (parseBlocksF fuel rest).map fun bs =>
        Block.heading (headingLevel line) (segmentInline (headingRest line)) :: bs
    | BlockKind.bullet =>
      let items := (line :: rest).takeWhile isBulletItemLine
      let rest1 := (line :: rest).dropWhile isBulletItemLine
      (parseBlocksF fuel rest1).map fun bs =>
        Block.bulletList (items.map bulletItemBlocks) :: bs
    | BlockKind.quote =>
      let qs := (line :: rest).takeWhile isQuoteLine
      let rest1 := (line :: rest).dropWhile isQuoteLine
      (parseBlocksF fuel rest1).map fun bs =>
        Block.quoteBlock (qs.map (fun l => String.mk (stripQuoteMarker l))) :: bs
    | BlockKind.admo =>
      let br := takeIndentedBody rest
      (parseBlocksF fuel br.1).bind fun nested =>
        (parseBlocksF fuel br.2).map fun bs =>
          Block.admonition (admoTag line) (admoTitle line) nested
            (admoTag line == "???") :: bs
    | BlockKind.tab =>
      let tr := takeTabRegions rest
      (parseTabsF fuel tr.1).bind fun tabs =>
        (parseBlocksF fuel tr.2).map fun bs => Block.tabBlock tabs :: bs
    | BlockKind.para =>
      let more := rest.takeWhile (fun l => !paragraphBreak l)
      let rest1 := rest.dropWhile (fun l => !paragraphBreak l)
      (parseBlocksF fuel rest1).map fun bs =>
        Block.paragraph (segmentInline (joinSp ((line :: more).map trimBoth))) :: bs

/-- Modelled from the spec: recursive sub-parsing of the isolated regions of
one tab group (section 4.4): each tab's accumulated body lines are parsed
through the document driver independently, yielding that tab's blocks. -/
def parseTabsF : Nat → List (List Char × List (List Char)) →
    Option (List (String × List Block))
  | 0, _ => none
  | _ + 1, [] => some []
  | fuel + 1, r :: rs =>
    (parseBlocksF fuel r.2).bind fun bs =>
      (parseTabsF fuel rs).map fun ts => (String.mk r.1, bs) :: ts

end

/-- Modelled from the spec: run the document driver over a list of lines
with the canonical fuel, one more than the number of lines — sufficient for
every run that does not stall, since every non-stalling step consumes at
least one line and nested regions are strictly smaller. -/
def parseLines (ls : List (List Char)) : Option (List Block) :=
  parseBlocksF (ls.length + 1) ls

/-- Modelled from the spec: the single entry point parse(text) of the
missing canonical engine meowz/parser2.py (section 6): split the buffer into
lines and run the document driver; some Document means the run terminated
with the whole input consumed, none means the driver stalled (section 9's
bullet asymmetry is the only way that can happen). -/
def parse (text : String) : Option Document :=
  (parseLines (splitLines text.data)).map Document.mk

/-- A dispatched line stalls the driver when the classifier sends it to the
bullet-list parser but the continuation test rejects it, so that the parser
consumes zero lines (section 9 open question). -/
def stallLine (l : List Char) : Bool :=
  isBulletStart l && !isBulletItemLine l

/-- Fueled check that a line and all lines derivable from it by stripping
admonition indentation prefixes are stall-free; the fuel is always
sufficient since each strip shortens the line. -/
def safeLineF : Nat → List Char → Bool
  | 0, _ => false
  | fuel + 1, l =>
    !stallLine l &&
      (if "    ".data.isPrefixOf l then safeLineF fuel (l.drop 4)
       else if "\t".data.isPrefixOf l then safeLineF fuel (l.drop 1)
       else true)

/-- A line is safe when neither it nor any de-indented descendant of it can
stall the bullet-list parser. -/
def safeLine (l : List Char) : Bool :=
  safeLineF (l.length + 1) l

/-- Predicate over the AST: every admonition anywhere in the block carries a
foldable flag equal to the tag identity test — foldable exactly when the tag
is the foldable marker. -/
inductive FoldOK : Block → Prop where
  | heading : ∀ n is, FoldOK (Block.heading n is)
  | paragraph : ∀ is, FoldOK (Block.paragraph is)
  | codeBlock : ∀ lang c, FoldOK (Block.codeBlock lang c)
  | quoteBlock : ∀ ls, FoldOK (Block.quoteBlock ls)
  | bulletList : ∀ items, (∀ it ∈ items, ∀ b ∈ it, FoldOK b) →
      FoldOK (Block.bulletList items)
  | admonition : ∀ tag title bs fold, fold = (tag == "???") →
      (∀ b ∈ bs, FoldOK b) → FoldOK (Block.admonition tag title bs fold)
  | tabBlock : ∀ tabs, (∀ t ∈ tabs, ∀ b ∈ t.2, FoldOK b) →
      FoldOK (Block.tabBlock tabs)

/-- All top-level blocks of a document satisfy the foldable invariant. -/
def DocFoldOK (d : Document) : Prop :=
  ∀ b ∈ d.blocks, FoldOK b

/-- Strip every leading and trailing double-quote character, the Python
strip semantics used by the transformer in src/meowz/parser.py on title
tokens. -/
def stripQuotesBoth (l : List Char) : List Char :=
  ((l.dropWhile (fun c => c = '"')).reverse.dropWhile (fun c => c = '"')).reverse

/-- Scanner for the tail of an ESCAPED_STRING token of src/meowz/grammar.py
after the opening double quote: a backslash escapes the next character, a
bare double quote closes the token.  Returns the inner characters as
written and the rest of the line after the closing quote.  Fueled; the fuel
is always sufficient since each step consumes at least one character. -/
def scanEscTail : Nat → List Char → Option (List Char × List Char)
  | _, [] => none
  | 0, _ => none
  | fuel + 1, c :: cs =>
    if c = '"' then some ([], cs)
    else if c = '\\' then
      match cs with
      | [] => none
      | d :: ds => (scanEscTail fuel ds).map fun p => (c :: d :: p.1, p.2)
    else (scanEscTail fuel cs).map fun p => (c :: p.1, p.2)

/-- Embedding of the admonition header-line shape of src/meowz/grammar.py:
the rule ADMO_TAG WS_INLINE STRING NEWLINE, with ADMO_TAG one of the two
markers, WS_INLINE one or more spaces or tabs, STRING an ESCAPED_STRING
(double-quoted, backslash escapes), and only ignorable trailing spaces
before the end of the line.  Returns the tag, the raw STRING token and the
stored title computed as the token with every leading and trailing double
quote stripped, exactly as MarkdownTransformer.admonition does in
src/meowz/parser.py. -/
def larkAdmoHeaderLine (l : List Char) : Option (String × List Char × String) :=
  if l.take 3 = "!!!".data || l.take 3 = "???".data then
    if ((l.drop 3).takeWhile isWSChar).isEmpty then none
    else
      match (l.drop 3).dropWhile isWSChar with
      | '"' :: cs =>
        match scanEscTail cs.length cs with
        | some (inner, rest) =>
          if (rest.dropWhile (fun c => c = ' ')).isEmpty then
            some (String.mk (l.take 3), '"' :: inner ++ ['"'],
              String.mk (stripQuotesBoth ('"' :: inner ++ ['"'])))
          else none
        | none => none
      | _ => none
  else none

/-- Embedding of the tab header-line shape of src/meowz/grammar.py: the rule
with the three-equals-sign delimiter, then WS_INLINE, then STRING, then the
end of the line; the stored title strips every leading and trailing double
quote from the token, exactly as MarkdownTransformer.tab_header does in
src/meowz/parser.py. -/
def larkTabHeaderLine (l : List Char) : Option (List Char × String) :=
  if l.take 3 = "===".data then
    if ((l.drop 3).takeWhile isWSChar).isEmpty then none
    else
      match (l.drop 3).dropWhile isWSChar with
      | '"' :: cs =>
        match scanEscTail cs.length cs with
        | some (inner, rest) =>
          if (rest.dropWhile (fun c => c = ' ')).isEmpty then
            some ('"' :: inner ++ ['"'],
              String.mk (stripQuotesBoth ('"' :: inner ++ ['"'])))
          else none
        | none => none
      | _ => none
  else none

/-- A line classified for the bullet-list parser is exactly one whose first
character is a bullet marker: the three earlier classifier rules can never
match such a line. -/
theorem classify_of_bulletStart (l : List Char) (h : isBulletStart l = true) :
    classify l = BlockKind.bullet := by
  match l, h with
  | c :: t, h =>
    have hc : c = '-' ∨ c = '+' ∨ c = '*' := by
      simp only [isBulletStart, Bool.or_eq_true, decide_eq_true_eq] at h
      tauto
    have hblank : isBlankLine (c :: t) = false := by
      rcases hc with rfl | rfl | rfl <;> simp [isBlankLine, isWSChar]
    have hfence : "```".data.isPrefixOf (c :: t) = false := by
      rcases hc with rfl | rfl | rfl <;> simp [List.isPrefixOf]
    have hhead : isHeadingLine (c :: t) = false := by
      have : headingLevel (c :: t) = 0 := by
        rcases hc with rfl | rfl | rfl <;> simp [headingLevel]
      simp [isHeadingLine, this]
    simp [classify, hblank, hfence, hhead, h]

/-- A stalling line makes the driver return none at every fuel: the
bullet-list parser consumes zero lines and the loop never terminates. -/
theorem stall_none (fuel : Nat) (l : List Char) (rest : List (List Char))
    (h : stallLine l = true) : parseBlocksF fuel (l :: rest) = none := by
  induction fuel with
  | zero => rfl
  | succ f ih =>
    have hb : isBulletStart l = true := by
      simp only [stallLine, Bool.and_eq_true] at h; exact h.1
    have hi : isBulletItemLine l = false := by
      simp only [stallLine, Bool.and_eq_true, Bool.not_eq_true'] at h; exact h.2
    have hc := classify_of_bulletStart l hb
    simp only [parseBlocksF, hc]
    rw [List.dropWhile_cons_of_neg (by simp [hi])]
    simp [ih]

/-- The de-indented admonition body and the remaining lines are never longer
than the consumed region. -/
theorem takeIndentedBody_len (ls : List (List Char)) :
    (takeIndentedBody ls).1.length ≤ ls.length ∧
      (takeIndentedBody ls).2.length ≤ ls.length := by
  induction ls with
  | nil => simp [takeIndentedBody]
  | cons l t ih =>
    simp only [takeIndentedBody]
    split_ifs <;> simp only [List.length_cons, List.length_nil] <;> omega

/-- Region weight distributes over list append. -/
theorem regionsWeight_append (a b : List (List Char × List (List Char))) :
    regionsWeight (a ++ b) = regionsWeight a + regionsWeight b := by
  induction a with
  | nil => simp [regionsWeight]
  | cons r t ih => simp only [regionsWeight, List.foldr_cons, List.cons_append] at *; omega

/-- The weight of the flushed open tab is its current weight. -/
theorem regionsWeight_toList (cur : Option (List Char × List (List Char))) :
    regionsWeight cur.toList = curWeight cur := by
  cases cur <;> simp [regionsWeight, curWeight, Option.toList]

/-- The regions and leftover produced by the tab scanning loop weigh no more
than the scanned lines plus the open tab. -/
theorem tabLoop_weight (ls : List (List Char))
    (cur : Option (List Char × List (List Char))) :
    regionsWeight (tabLoop cur ls).1 + (tabLoop cur ls).2.length ≤
      ls.length + curWeight cur := by
  induction ls generalizing cur with
  | nil => simp [tabLoop, regionsWeight_toList]
  | cons l t ih =>
    simp only [tabLoop]
    split_ifs with h1 h2
    · simp only [List.length_cons, regionsWeight_toList]; omega
    · have := ih (some (tabDelimTitle l, []))
      simp only [List.length_cons, List.length_nil, regionsWeight_append,
        regionsWeight_toList, curWeight] at *
      omega
    · match cur with
      | some p =>
        have := ih (some (p.1, p.2 ++ [l]))
        simp only [curWeight, List.length_append, List.length_cons,
          List.length_nil] at *
        omega
      | none =>
        have := ih none
        simp only [curWeight, List.length_cons] at *
        omega

/-- Isolating tab regions consumes at least as many lines as the regions
weigh together with the leftover. -/
theorem takeTabRegions_weight (ls : List (List Char)) :
    regionsWeight (takeTabRegions ls).1 + (takeTabRegions ls).2.length ≤
      ls.length := by
  have := tabLoop_weight ls none
  simpa [takeTabRegions, curWeight] using this

/-- Each region body is counted inside the total region weight. -/
theorem mem_regionsWeight {r : List Char × List (List Char)}
    {rs : List (List Char × List (List Char))} (h : r ∈ rs) :
    r.2.length + 1 ≤ regionsWeight rs := by
  induction rs with
  | nil => cases h
  | cons a t ih =>
    rcases List.mem_cons.mp h with h | h
    · subst h; simp [regionsWeight]
    · have := ih h
      simp only [regionsWeight, List.foldr_cons] at *
      omega

/-- Fuel monotonicity: a run of the driver or of the tab-region sub-parser
that completes within some fuel completes with the same answer when given
one more unit of fuel. -/
theorem parse_mono (fuel : Nat) :
    (∀ ls bs, parseBlocksF fuel ls = some bs →
      parseBlocksF (fuel + 1) ls = some bs) ∧
    (∀ rs ts, parseTabsF fuel rs = some ts →
      parseTabsF (fuel + 1) rs = some ts) := by
  induction fuel with
  | zero =>
    refine ⟨fun ls bs h => ?_, fun rs ts h => ?_⟩ <;>
      simp [parseBlocksF, parseTabsF] at h
  | succ f ih =>
    obtain ⟨ihB, ihT⟩ := ih
    refine ⟨fun ls bs h => ?_, fun rs ts h => ?_⟩
    · match ls with
      | [] => exact h
      | line :: rest =>
        cases hc : classify line <;> simp only [parseBlocksF, hc] at h ⊢
        case blank => exact ihB _ _ h
        case fence =>
          obtain ⟨bs1, h1, rfl⟩ := Option.map_eq_some'.mp h
          simp [ihB _ _ h1]
        case heading =>
          obtain ⟨bs1, h1, rfl⟩ := Option.map_eq_some'.mp h
          simp [ihB _ _ h1]
        case bullet =>
          obtain ⟨bs1, h1, rfl⟩ := Option.map_eq_some'.mp h
          simp [ihB _ _ h1]
        case quote =>
          obtain ⟨bs1, h1, rfl⟩ := Option.map_eq_some'.mp h
          simp [ihB _ _ h1]
        case admo =>
          obtain ⟨nested, h1, h2⟩ := Option.bind_eq_some.mp h
          obtain ⟨bs2, h3, rfl⟩ := Option.map_eq_some'.mp h2
          simp [ihB _ _ h1, ihB _ _ h3]
        case tab =>
          obtain ⟨tabs, h1, h2⟩ := Option.bind_eq_some.mp h
          obtain ⟨bs2, h3, rfl⟩ := Option.map_eq_some'.mp h2
          simp [ihT _ _ h1, ihB _ _ h3]
        case para =>
          obtain ⟨bs1, h1, rfl⟩ := Option.map_eq_some'.mp h
          simp [ihB _ _ h1]
    · match rs with
      | [] => exact h
      | r :: rs0 =>
        simp only [parseTabsF] at h ⊢
        obtain ⟨bs1, h1, h2⟩ := Option.bind_eq_some.mp h
        obtain ⟨ts1, h3, rfl⟩ := Option.map_eq_some'.mp h2
        simp [ihB _ _ h1, ihT _ _ h3]

/-- Fuel monotonicity, iterated to any larger fuel. -/
theorem parseBlocksF_le {f g : Nat} (hfg : f ≤ g) (ls : List (List Char))
    (bs : List Block) (h : parseBlocksF f ls = some bs) :
    parseBlocksF g ls = some bs := by
  induction hfg with
  | refl => exact h
  | step _ ih => exact (parse_mono _).1 _ _ ih

/-- Fuel monotonicity for the tab-region sub-parser, iterated. -/
theorem parseTabsF_le {f g : Nat} (hfg : f ≤ g)
    (rs : List (List Char × List (List Char)))
    (ts : List (String × List Block)) (h : parseTabsF f rs = some ts) :
    parseTabsF g rs = some ts := by
  induction hfg with
  | refl => exact h
  | step _ ih => exact (parse_mono _).2 _ _ ih

/-- Classifier inversion: only a line starting with a bullet marker is
dispatched to the bullet-list parser. -/
theorem classify_bullet_start {l : List Char}
    (h : classify l = BlockKind.bullet) : isBulletStart l = true := by
  unfold classify at h
  split_ifs at h
  simp_all

/-- Classifier inversion: only a line starting with the quote marker is
dispatched to the quote-block parser. -/
theorem classify_quote_pre {l : List Char}
    (h : classify l = BlockKind.quote) : ">".data.isPrefixOf l = true := by
  unfold classify at h
  split_ifs at h
  simp_all

/-- A line starting with the raw quote marker also passes the left-trimmed
continuation test of the quote parser. -/
theorem quoteLine_of_pre {l : List Char}
    (h : ">".data.isPrefixOf l = true) : isQuoteLine l = true := by
  match l, h with
  | c :: t, h =>
    have hc : c = '>' := by
      simp only [List.isPrefixOf, List.instBEq] at h
      simp only [Bool.and_eq_true, beq_iff_eq] at h
      exact h.1.symm
    subst hc
    simp [isQuoteLine, trimL, List.dropWhile_cons, isWSChar]

/-- A run of the driver that completes at any fuel also completes, with the
same blocks, at the canonical fuel of one more than the number of lines;
similarly the tab sub-parser completes at one more than the region weight. -/
theorem parse_canon_all (n : Nat) :
    (∀ ls : List (List Char), ls.length = n → ∀ f bs,
      parseBlocksF f ls = some bs → parseBlocksF (ls.length + 1) ls = some bs) ∧
    (∀ rs : List (List Char × List (List Char)), regionsWeight rs = n →
      ∀ f ts, parseTabsF f rs = some ts →
        parseTabsF (regionsWeight rs + 1) rs = some ts) := by
  induction n using Nat.strong_induction_on with
  | _ n IH =>
    constructor
    · intro ls hn f bs h
      match f, ls, hn, h with
      | 0, ls, hn, h => simp [parseBlocksF] at h
      | f + 1, [], hn, h => exact h
      | f + 1, line :: rest, hn, h =>
        simp only [List.length_cons] at hn ⊢
        have hlen : ∀ (ms : List (List Char)) (g : Nat) (cs : List Block),
            ms.length ≤ rest.length → parseBlocksF g ms = some cs →
            parseBlocksF (rest.length + 1) ms = some cs := by
          intro ms g cs hle hsome
          have h1 := (IH ms.length (by omega)).1 ms rfl g cs hsome
          exact parseBlocksF_le (by omega) ms cs h1
        cases hc : classify line
        case blank =>
          simp only [parseBlocksF, hc] at h ⊢
          exact hlen rest f bs (le_refl _) h
        case fence =>
          simp only [parseBlocksF, hc] at h ⊢
          obtain ⟨bs1, h1, rfl⟩ := Option.map_eq_some'.mp h
          have hle : ((rest.dropWhile fun l => !fenceClose l).tail).length ≤
              rest.length :=
            le_trans (List.tail_sublist _).length_le
              (List.dropWhile_sublist _).length_le
          rw [hlen _ f bs1 hle h1]; rfl
        case heading =>
          simp only [parseBlocksF, hc] at h ⊢
          obtain ⟨bs1, h1, rfl⟩ := Option.map_eq_some'.mp h
          rw [hlen _ f bs1 (le_refl _) h1]; rfl
        case bullet =>
          by_cases hbi : isBulletItemLine line = true
          · simp only [parseBlocksF, hc] at h ⊢
            rw [List.dropWhile_cons_of_pos (by simp [hbi]),
              List.takeWhile_cons_of_pos (by simp [hbi])] at h ⊢
            obtain ⟨bs1, h1, rfl⟩ := Option.map_eq_some'.mp h
            have hle : (rest.dropWhile isBulletItemLine).length ≤ rest.length :=
              (List.dropWhile_sublist _).length_le
            rw [hlen _ f bs1 hle h1]; rfl
          · exfalso
            have hstall : stallLine line = true := by
              simp [stallLine, classify_bullet_start hc, hbi]
            rw [stall_none (f + 1) line rest hstall] at h
            cases h
        case quote =>
          have hq : isQuoteLine line = true :=
            quoteLine_of_pre (classify_quote_pre hc)
          simp only [parseBlocksF, hc] at h ⊢
          rw [List.dropWhile_cons_of_pos (by simp [hq]),
            List.takeWhile_cons_of_pos (by simp [hq])] at h ⊢
          obtain ⟨bs1, h1, rfl⟩ := Option.map_eq_some'.mp h
          have hle : (rest.dropWhile isQuoteLine).length ≤ rest.length :=
            (List.dropWhile_sublist _).length_le
          rw [hlen _ f bs1 hle h1]; rfl
        case admo =>
          simp only [parseBlocksF, hc] at h ⊢
          obtain ⟨nested, h1, h2⟩ := Option.bind_eq_some.mp h
          obtain ⟨bs2, h3, rfl⟩ := Option.map_eq_some'.mp h2
          rw [hlen _ f nested (takeIndentedBody_len rest).1 h1,
            hlen _ f bs2 (takeIndentedBody_len rest).2 h3]; rfl
        case tab =>
          simp only [parseBlocksF, hc] at h ⊢
          obtain ⟨tabs, h1, h2⟩ := Option.bind_eq_some.mp h
          obtain ⟨bs2, h3, rfl⟩ := Option.map_eq_some'.mp h2
          have hw := takeTabRegions_weight rest
          have ht1 : parseTabsF (regionsWeight (takeTabRegions rest).1 + 1)
              (takeTabRegions rest).1 = some tabs :=
            (IH (regionsWeight (takeTabRegions rest).1) (by omega)).2 _ rfl
              f tabs h1
          have ht2 : parseTabsF (rest.length + 1) (takeTabRegions rest).1 =
              some tabs :=
            parseTabsF_le (by omega) _ _ ht1
          rw [ht2, hlen _ f bs2 (by omega) h3]; rfl
        case para =>
          simp only [parseBlocksF, hc] at h ⊢
          obtain ⟨bs1, h1, rfl⟩ := Option.map_eq_some'.mp h
          have hle : (rest.dropWhile fun l => !paragraphBreak l).length ≤
              rest.length :=
            (List.dropWhile_sublist _).length_le
          rw [hlen _ f bs1 hle h1]; rfl
    · intro rs hn f ts h
      match f, rs, hn, h with
      | 0, rs, hn, h => simp [parseTabsF] at h
      | f + 1, [], hn, h => exact h
      | f + 1, r :: rs0, hn, h =>
        simp only [parseTabsF] at h ⊢
        obtain ⟨bs1, h1, h2⟩ := Option.bind_eq_some.mp h
        obtain ⟨ts1, h3, rfl⟩ := Option.map_eq_some'.mp h2
        have hwc : regionsWeight (r :: rs0) = r.2.length + 1 + regionsWeight rs0 := by
          simp [regionsWeight]
        have hb : parseBlocksF (r.2.length + 1) r.2 = some bs1 :=
          (IH r.2.length (by omega)).1 _ rfl f bs1 h1
        have hb2 : parseBlocksF (regionsWeight (r :: rs0)) r.2 = some bs1 :=
          parseBlocksF_le (by omega) _ _ hb
        have ht : parseTabsF (regionsWeight rs0 + 1) rs0 = some ts1 :=
          (IH (regionsWeight rs0) (by omega)).2 _ rfl f ts1 h3
        have ht2 : parseTabsF (regionsWeight (r :: rs0)) rs0 = some ts1 :=
          parseTabsF_le (by omega) _ _ ht
        rw [hb2, ht2]; rfl

/-- A completed driver run at any fuel agrees with the canonical entry
point over the same lines. -/
theorem parse_canon {f : Nat} {ls : List (List Char)} {bs : List Block}
    (h : parseBlocksF f ls = some bs) : parseLines ls = some bs :=
  (parse_canon_all ls.length).1 ls rfl f bs h

/-- Inversion for a completed tab-region sub-parse: the produced tabs
correspond index by index to the isolated regions — each tab takes its title
from its own region and its blocks are exactly the independent parse of
that region's body lines. -/
theorem parseTabsF_some_get (rs : List (List Char × List (List Char))) :
    ∀ (f : Nat) (ts : List (String × List Block)), parseTabsF f rs = some ts →
      ts.length = rs.length ∧
      ∀ i (hi : i < ts.length) (hri : i < rs.length),
        (ts.get ⟨i, hi⟩).1 = String.mk ((rs.get ⟨i, hri⟩).1) ∧
        parseLines ((rs.get ⟨i, hri⟩).2) = some ((ts.get ⟨i, hi⟩).2) := by
  induction rs with
  | nil =>
    intro f ts h
    match f, h with
    | 0, h => simp [parseTabsF] at h
    | f + 1, h =>
      cases Option.some.inj h
      exact ⟨rfl, fun i hi hri => absurd hri (by simp)⟩
  | cons r rs0 ih =>
    intro f ts h
    match f, h with
    | 0, h => simp [parseTabsF] at h
    | f + 1, h =>
      simp only [parseTabsF] at h
      obtain ⟨bs1, h1, h2⟩ := Option.bind_eq_some.mp h
      obtain ⟨ts1, h3, rfl⟩ := Option.map_eq_some'.mp h2
      obtain ⟨hl, hrec⟩ := ih f ts1 h3
      refine ⟨by simp [hl], ?_⟩
      intro i hi hri
      match i with
      | 0 => exact ⟨rfl, parse_canon h1⟩
      | i + 1 =>
        have hi1 : i < ts1.length := by simp at hi; omega
        have hri1 : i < rs0.length := by simp at hri; omega
        exact hrec i hi1 hri1

/-- C2: recursive closure, settled at every container-formation site of the
driver (hence at every admonition or tab node of any parse result, since
each such node is formed at exactly one such site).  First part: whenever
the driver parses an admonition at the head of the line list, the nested
blocks field equals the independent run of the document driver (with its
own canonical fuel) over the extracted de-indented body lines.  Second part:
whenever the driver parses a tab group, tab number i takes its title and its
blocks from region number i — the blocks being the independent parse of
that tab's own body region and not any other tab's. -/
theorem C2_recursive_closure :
    (∀ (f : Nat) (line : List Char) (rest : List (List Char)) tag title nested
        fold bs,
      classify line = BlockKind.admo →
      parseBlocksF f (line :: rest) =
        some (Block.admonition tag title nested fold :: bs) →
      parseLines (takeIndentedBody rest).1 = some nested) ∧
    (∀ (f : Nat) (line : List Char) (rest : List (List Char)) tabs bs,
      classify line = BlockKind.tab →
      parseBlocksF f (line :: rest) = some (Block.tabBlock tabs :: bs) →
      tabs.length = (takeTabRegions rest).1.length ∧
      ∀ i (hi : i < tabs.length) (hri : i < (takeTabRegions rest).1.length),
        (tabs.get ⟨i, hi⟩).1 =
          String.mk (((takeTabRegions rest).1.get ⟨i, hri⟩).1) ∧
        parseLines (((takeTabRegions rest).1.get ⟨i, hri⟩).2) =
          some ((tabs.get ⟨i, hi⟩).2)) := by
  constructor
  · intro f line rest tag title nested fold bs hc h
    match f, h with
    | 0, h => simp [parseBlocksF] at h
    | f + 1, h =>
      simp only [parseBlocksF, hc] at h
      obtain ⟨nested1, h1, h2⟩ := Option.bind_eq_some.mp h
      obtain ⟨bs2, h3, h4⟩ := Option.map_eq_some'.mp h2
      simp only [List.cons.injEq, Block.admonition.injEq] at h4
      obtain ⟨⟨htag, htitle, hnested, hfold⟩, hbs⟩ := h4
      subst hnested
      exact parse_canon h1
  · intro f line rest tabs bs hc h
    match f, h with
    | 0, h => simp [parseBlocksF] at h
    | f + 1, h =>
      simp only [parseBlocksF, hc] at h
      obtain ⟨tabs1, h1, h2⟩ := Option.bind_eq_some.mp h
      obtain ⟨bs2, h3, h4⟩ := Option.map_eq_some'.mp h2
      simp only [List.cons.injEq, Block.tabBlock.injEq] at h4
      obtain ⟨htabs, hbs⟩ := h4
      subst htabs
      exact parseTabsF_some_get _ f _ h1

/-- Witness for C2: the recursive-closure theorem applied at one concrete
admonition (marker line with a four-space-indented body line) and at one
concrete tab group (one region holding one body line), with every
hypothesis discharged by evaluation. -/
theorem C2_witness :
    parseLines [['h', 'i']] = some [Block.paragraph [Inline.text "hi"]] ∧
    parseLines [['o', 'k']] = some [Block.paragraph [Inline.text "ok"]] := by
  constructor
  · exact C2_recursive_closure.1 3 "!!! note".data ["    hi".data] "!!!" "note"
      [Block.paragraph [Inline.text "hi"]] false [] rfl rfl
  · exact ((C2_recursive_closure.2 4 "=== x".data ["::: A".data, "ok".data]
      [("A", [Block.paragraph [Inline.text "ok"]])] [] rfl rfl).2 0
      (by decide) (by decide)).2

/-- Every block produced by the driver, and every block inside every tab
produced by the tab sub-parser, satisfies the foldable invariant: the
foldable flag of each admonition equals the tag identity test. -/
theorem foldOK_all (fuel : Nat) :
    (∀ ls bs, parseBlocksF fuel ls = some bs → ∀ b ∈ bs, FoldOK b) ∧
    (∀ rs ts, parseTabsF fuel rs = some ts → ∀ t ∈ ts, ∀ b ∈ t.2, FoldOK b) := by
  induction fuel with
  | zero =>
    refine ⟨fun ls bs h => ?_, fun rs ts h => ?_⟩ <;>
      simp [parseBlocksF, parseTabsF] at h
  | succ f ih =>
    obtain ⟨ihB, ihT⟩ := ih
    constructor
    · intro ls bs h
      match ls, h with
      | [], h =>
        cases Option.some.inj h
        intro b hb
        cases hb
      | line :: rest, h =>
        cases hc : classify line <;> simp only [parseBlocksF, hc] at h
        case blank => exact ihB _ _ h
        case fence =>
          obtain ⟨bs1, h1, rfl⟩ := Option.map_eq_some'.mp h
          intro b hb
          rcases List.mem_cons.mp hb with rfl | hb
          · exact FoldOK.codeBlock _ _
          · exact ihB _ _ h1 b hb
        case heading =>
          obtain ⟨bs1, h1, rfl⟩ := Option.map_eq_some'.mp h
          intro b hb
          rcases List.mem_cons.mp hb with rfl | hb
          · exact FoldOK.heading _ _
          · exact ihB _ _ h1 b hb
        case bullet =>
          obtain ⟨bs1, h1, rfl⟩ := Option.map_eq_some'.mp h
          intro b hb
          rcases List.mem_cons.mp hb with rfl | hb
          · refine FoldOK.bulletList _ ?_
            intro it hit b2 hb2
            obtain ⟨l, hl, rfl⟩ := List.mem_map.mp hit
            simp only [bulletItemBlocks, List.mem_singleton] at hb2
            subst hb2
            exact FoldOK.paragraph _
          · exact ihB _ _ h1 b hb
        case quote =>
          obtain ⟨bs1, h1, rfl⟩ := Option.map_eq_some'.mp h
          intro b hb
          rcases List.mem_cons.mp hb with rfl | hb
          · exact FoldOK.quoteBlock _
          · exact ihB _ _ h1 b hb
        case admo =>
          obtain ⟨nested, h1, h2⟩ := Option.bind_eq_some.mp h
          obtain ⟨bs2, h3, rfl⟩ := Option.map_eq_some'.mp h2
          intro b hb
          rcases List.mem_cons.mp hb with rfl | hb
          · exact FoldOK.admonition _ _ _ _ rfl (fun b2 hb2 => ihB _ _ h1 b2 hb2)
          · exact ihB _ _ h3 b hb
        case tab =>
          obtain ⟨tabs, h1, h2⟩ := Option.bind_eq_some.mp h
          obtain ⟨bs2, h3, rfl⟩ := Option.map_eq_some'.mp h2
          intro b hb
          rcases List.mem_cons.mp hb with rfl | hb
          · exact FoldOK.tabBlock _ (ihT _ _ h1)
          · exact ihB _ _ h3 b hb
        case para =>
          obtain ⟨bs1, h1, rfl⟩ := Option.map_eq_some'.mp h
          intro b hb
          rcases List.mem_cons.mp hb with rfl | hb
          · exact FoldOK.paragraph _
          · exact ihB _ _ h1 b hb
    · intro rs ts h
      match rs, h with
      | [], h =>
        cases Option.some.inj h
        intro t ht
        cases ht
      | r :: rs0, h =>
        simp only [parseTabsF] at h
        obtain ⟨bs1, h1, h2⟩ := Option.bind_eq_some.mp h
        obtain ⟨ts1, h3, rfl⟩ := Option.map_eq_some'.mp h2
        intro t ht
        rcases List.mem_cons.mp ht with rfl | ht
        · intro b hb
          exact ihB _ _ h1 b hb
        · exact ihT _ _ h3 t ht

/-- C4: for every Admonition node anywhere in a Document returned by parse,
the foldable flag is determined by the tag identity alone — foldable is true
exactly when the tag is the foldable marker of three question marks, and
false for the marker of three exclamation marks (which is the only other tag
the classifier dispatches to the admonition parser). -/
theorem C4_foldable_from_tag (text : String) (doc : Document)
    (h : parse text = some doc) : DocFoldOK doc := by
  unfold parse at h
  obtain ⟨bs, h1, rfl⟩ := Option.map_eq_some'.mp h
  exact (foldOK_all _).1 _ _ h1

/-- Witness for C4: the invariant theorem applied to a concrete input
holding one admonition of each marker, the hypothesis discharged by
evaluation. -/
theorem C4_witness :
    DocFoldOK ⟨[Block.admonition "???" "tip" [] true,
      Block.admonition "!!!" "note" [] false]⟩ :=
  C4_foldable_from_tag "??? tip\n!!! note\n" _ rfl

/-- C5: parse applied to the input consisting of a hash, a space, the word
Title and a newline returns a Document containing exactly one block, a
Heading of level 1 whose inline sequence is exactly one Text span with value
Title (spec section 8, scenario 1). -/
theorem C5_heading_scenario :
    parse "# Title\n" = some ⟨[Block.heading 1 [Inline.text "Title"]]⟩ := rfl

/-- C6: parse applied to the admonition scenario input (marker line with
unquoted title, a blank line, one body line indented by four spaces, then a
blank line) returns a Document containing exactly one Admonition whose tag
is the non-foldable marker, whose title is the unquoted remainder of the
marker line, whose foldable flag is false, and whose blocks are exactly one
Paragraph holding one Text span (spec section 8, scenario 5). -/
theorem C6_admonition_scenario :
    parse "!!! note\n\n    body text\n\n" =
      some ⟨[Block.admonition "!!!" "note"
        [Block.paragraph [Inline.text "body text"]] false]⟩ := rfl

/-- C7: parse applied to a fenced code block with language tag py and a
single content line returns a Document containing exactly one CodeBlock
whose language is py and whose content is exactly the content line with no
trailing newline (spec section 8, scenario 3). -/
theorem C7_code_block_scenario :
    parse "```py\nx=1\n```\n" =
      some ⟨[Block.codeBlock (some "py") "x=1"]⟩ := rfl

/-- C8: an unterminated fenced code block is not an error: when no later
line closes the fence, the fenced-code parser consumes every remaining
line verbatim to end-of-input, the driver still terminates having consumed
the whole input, and the result holds a CodeBlock whose content is exactly
the remaining lines joined by newlines. -/
theorem C8_unterminated_fence (line : List Char) (rest : List (List Char))
    (hf : classify line = BlockKind.fence)
    (hnc : ∀ l ∈ rest, fenceClose l = false) :
    parseLines (line :: rest) =
      some [Block.codeBlock (fenceLang line) (String.mk (joinNl rest))] := by
  have hboth : rest.takeWhile (fun l => !fenceClose l) = rest ∧
      rest.dropWhile (fun l => !fenceClose l) = [] := by
    induction rest with
    | nil => simp
    | cons a t iht =>
      have ha : fenceClose a = false := hnc a (List.mem_cons_self a t)
      have ht : ∀ l ∈ t, fenceClose l = false :=
        fun l hl => hnc l (List.mem_cons_of_mem a hl)
      obtain ⟨h1, h2⟩ := iht ht
      constructor
      · rw [List.takeWhile_cons_of_pos (by simp [ha]), h1]
      · rw [List.dropWhile_cons_of_pos (by simp [ha]), h2]
  simp only [parseLines, List.length_cons, parseBlocksF, hf, hboth.1, hboth.2,
    List.tail_nil]
  rfl

/-- Witness for C8: the unterminated-fence theorem applied to a concrete
fence line followed by one never-closed content line, the hypotheses
discharged by evaluation. -/
theorem C8_witness :
    parseLines ["```py".data, "x=1".data] =
      some [Block.codeBlock (fenceLang "```py".data)
        (String.mk (joinNl ["x=1".data]))] :=
  C8_unterminated_fence "```py".data ["x=1".data] rfl (by decide)

/-- C9: the stored lines of a quote block are raw: whenever the driver
parses a quote block at the head of the line list, the stored lines are
exactly the consumed source lines each reduced by stripQuoteMarker — the
raw remainder after the leading quote marker and the whitespace following
it, with no inline interpretation applied; and concretely a quoted line
holding a bracketed link pattern is stored verbatim, brackets and url
included. -/
theorem C9_quote_raw_lines :
    (∀ (f : Nat) (line : List Char) (rest : List (List Char)) q bs,
      classify line = BlockKind.quote →
      parseBlocksF f (line :: rest) = some (Block.quoteBlock q :: bs) →
      q = ((line :: rest).takeWhile isQuoteLine).map
        (fun l => String.mk (stripQuoteMarker l))) ∧
    parse "> see [site](http://x) now\n" =
      some ⟨[Block.quoteBlock ["see [site](http://x) now"]]⟩ := by
  constructor
  · intro f line rest q bs hc h
    match f, h with
    | 0, h => simp [parseBlocksF] at h
    | f + 1, h =>
      simp only [parseBlocksF, hc] at h
      obtain ⟨bs1, h1, h2⟩ := Option.map_eq_some'.mp h
      simp only [List.cons.injEq, Block.quoteBlock.injEq] at h2
      exact h2.1.symm
  · rfl

/-- Witness for C9: the raw-lines theorem applied to one concrete quoted
line, the hypotheses discharged by evaluation. -/
theorem C9_witness :
    (["line one"] : List String) =
      (["> line one".data].takeWhile isQuoteLine).map
        (fun l => String.mk (stripQuoteMarker l)) :=
  C9_quote_raw_lines.1 2 "> line one".data [] ["line one"] [] rfl rfl

/-- C1 counterexample: the input consisting of a star, the letter x and a
newline is dispatched to the bullet-list parser, which consumes zero lines;
the document driver therefore never terminates, and parse — whose fuel is
proved sufficient for every non-stalling input — yields no Document at all,
refuting the claim that parse returns a Document for every input string. -/
theorem C1_counterexample : parse "*x\n" = none := rfl

/-- The fueled safety check does not depend on the fuel once the fuel
exceeds the line length. -/
theorem safeLineF_irrel (k : Nat) : ∀ l : List Char, l.length = k →
    ∀ f g, l.length < f → l.length < g → safeLineF f l = safeLineF g l := by
  induction k using Nat.strong_induction_on with
  | _ k IH =>
    intro l hk f g hf hg
    obtain ⟨f1, rfl⟩ : ∃ f1, f = f1 + 1 := ⟨f - 1, by omega⟩
    obtain ⟨g1, rfl⟩ : ∃ g1, g = g1 + 1 := ⟨g - 1, by omega⟩
    simp only [safeLineF]
    split_ifs with h4 htb
    · have hlen : 4 ≤ l.length := by
        simpa using (List.isPrefixOf_iff_prefix.mp h4).length_le
      congr 1
      exact IH (l.drop 4).length (by simp; omega) _ rfl f1 g1
        (by simp; omega) (by simp; omega)
    · have hlen : 1 ≤ l.length := by
        simpa using (List.isPrefixOf_iff_prefix.mp htb).length_le
      congr 1
      exact IH (l.drop 1).length (by simp; omega) _ rfl f1 g1
        (by simp; omega) (by simp; omega)
    · rfl

/-- A safe line is not a stalling line. -/
theorem safeLine_stall {l : List Char} (h : safeLine l = true) :
    stallLine l = false := by
  unfold safeLine at h
  simp only [safeLineF, Bool.and_eq_true, Bool.not_eq_true'] at h
  exact h.1

/-- Safety is preserved by stripping a four-space indentation prefix. -/
theorem safeLine_drop4 (l : List Char) (h : safeLine l = true)
    (hp : "    ".data.isPrefixOf l = true) : safeLine (l.drop 4) = true := by
  have hlen : 4 ≤ l.length := by
    simpa using (List.isPrefixOf_iff_prefix.mp hp).length_le
  unfold safeLine at h
  simp only [safeLineF, Bool.and_eq_true, hp, if_true] at h
  unfold safeLine
  rw [safeLineF_irrel (l.drop 4).length (l.drop 4) rfl ((l.drop 4).length + 1)
    l.length (by omega) (by simp; omega)]
  exact h.2

/-- Safety is preserved by stripping a tab indentation prefix. -/
theorem safeLine_drop1 (l : List Char) (h : safeLine l = true)
    (hp : "\t".data.isPrefixOf l = true) : safeLine (l.drop 1) = true := by
  have hlen : 1 ≤ l.length := by
    simpa using (List.isPrefixOf_iff_prefix.mp hp).length_le
  have hp4 : "    ".data.isPrefixOf l = false := by
    obtain ⟨t, ht⟩ := List.isPrefixOf_iff_prefix.mp hp
    match l, ht with
    | _, rfl => rfl
  unfold safeLine at h
  simp only [safeLineF, Bool.and_eq_true, hp, hp4, if_true, if_false,
    Bool.false_eq_true] at h
  unfold safeLine
  rw [safeLineF_irrel (l.drop 1).length (l.drop 1) rfl ((l.drop 1).length + 1)
    l.length (by omega) (by simp; omega)]
  exact h.2

/-- The empty line is safe. -/
theorem safeLine_nil : safeLine ([] : List Char) = true := by decide

/-- When every line of the collection region is safe, so is every
de-indented body line and every remaining line. -/
theorem takeIndentedBody_safe (ls : List (List Char)) :
    (∀ l ∈ ls, safeLine l = true) →
    (∀ b ∈ (takeIndentedBody ls).1, safeLine b = true) ∧
    (∀ l ∈ (takeIndentedBody ls).2, safeLine l = true) := by
  induction ls with
  | nil => intro h; simp [takeIndentedBody]
  | cons l t ih =>
    intro h
    have hl : safeLine l = true := h l (List.mem_cons_self l t)
    have ht : ∀ x ∈ t, safeLine x = true :=
      fun x hx => h x (List.mem_cons_of_mem l hx)
    obtain ⟨ih1, ih2⟩ := ih ht
    simp only [takeIndentedBody]
    split_ifs with h4 htb hbl
    · refine ⟨fun b hb => ?_, ih2⟩
      rcases List.mem_cons.mp hb with rfl | hb
      · exact safeLine_drop4 l hl h4
      · exact ih1 b hb
    · refine ⟨fun b hb => ?_, ih2⟩
      rcases List.mem_cons.mp hb with rfl | hb
      · exact safeLine_drop1 l hl htb
      · exact ih1 b hb
    · refine ⟨fun b hb => ?_, ih2⟩
      rcases List.mem_cons.mp hb with rfl | hb
      · exact safeLine_nil
      · exact ih1 b hb
    · exact ⟨fun b hb => absurd hb (List.not_mem_nil b), h⟩

/-- Lines accumulated into tab-region bodies, and leftover lines, come from
the scanned lines or from the open tab's pending body. -/
theorem tabLoop_mem (ls : List (List Char)) :
    ∀ cur, (∀ r ∈ (tabLoop cur ls).1, ∀ x ∈ r.2,
        x ∈ ls ∨ ∃ p, cur = some p ∧ x ∈ p.2) ∧
      (∀ x ∈ (tabLoop cur ls).2, x ∈ ls) := by
  induction ls with
  | nil =>
    intro cur
    refine ⟨fun r hr x hx => ?_, fun x hx => absurd hx (List.not_mem_nil x)⟩
    right
    match cur, hr with
    | some p, hr =>
      rcases List.mem_singleton.mp hr with rfl
      exact ⟨r, rfl, hx⟩
  | cons l t ih =>
    intro cur
    simp only [tabLoop]
    split_ifs with hd hemp
    · refine ⟨fun r hr x hx => ?_, fun x hx => List.mem_cons_of_mem l hx⟩
      right
      match cur, hr with
      | some p, hr =>
        rcases List.mem_singleton.mp hr with rfl
        exact ⟨r, rfl, hx⟩
    · obtain ⟨iht1, iht2⟩ := ih (some (tabDelimTitle l, []))
      refine ⟨fun r hr x hx => ?_,
        fun x hx => List.mem_cons_of_mem l (iht2 x hx)⟩
      rcases List.mem_append.mp hr with hr | hr
      · right
        match cur, hr with
        | some p, hr =>
          rcases List.mem_singleton.mp hr with rfl
          exact ⟨r, rfl, hx⟩
      · rcases iht1 r hr x hx with hin | ⟨p, hp, hxp⟩
        · exact Or.inl (List.mem_cons_of_mem l hin)
        · cases Option.some.inj hp
          cases hxp
    · match cur with
      | none =>
        obtain ⟨iht1, iht2⟩ := ih none
        refine ⟨fun r hr x hx => ?_,
          fun x hx => List.mem_cons_of_mem l (iht2 x hx)⟩
        rcases iht1 r hr x hx with hin | ⟨p, hp, _⟩
        · exact Or.inl (List.mem_cons_of_mem l hin)
        · cases hp
      | some p =>
        obtain ⟨p1, p2⟩ := p
        obtain ⟨iht1, iht2⟩ := ih (some (p1, p2 ++ [l]))
        refine ⟨fun r hr x hx => ?_,
          fun x hx => List.mem_cons_of_mem l (iht2 x hx)⟩
        rcases iht1 r hr x hx with hin | ⟨q, hq, hxq⟩
        · exact Or.inl (List.mem_cons_of_mem l hin)
        · cases Option.some.inj hq
          rcases List.mem_append.mp hxq with hx2 | hx2
          · exact Or.inr ⟨(p1, p2), rfl, hx2⟩
          · rcases List.mem_singleton.mp hx2 with rfl
            exact Or.inl (List.mem_cons_self _ _)

/-- Fuel sufficiency on safe input: when every line is safe (and, for the
tab sub-parser, every region body line is safe), any fuel exceeding the
number of lines (or the region weight) completes the run. -/
theorem safe_suff (n : Nat) :
    (∀ ls : List (List Char), ls.length = n →
      (∀ l ∈ ls, safeLine l = true) →
      ∀ f, ls.length < f → ∃ bs, parseBlocksF f ls = some bs) ∧
    (∀ rs : List (List Char × List (List Char)), regionsWeight rs = n →
      (∀ r ∈ rs, ∀ x ∈ r.2, safeLine x = true) →
      ∀ f, regionsWeight rs < f → ∃ ts, parseTabsF f rs = some ts) := by
  induction n using Nat.strong_induction_on with
  | _ n IH =>
    constructor
    · intro ls hn hsafe f hf
      obtain ⟨f1, rfl⟩ : ∃ f1, f = f1 + 1 := ⟨f - 1, by omega⟩
      match ls, hn, hsafe, hf with
      | [], hn, hsafe, hf => exact ⟨[], rfl⟩
      | line :: rest, hn, hsafe, hf =>
        simp only [List.length_cons] at hn hf
        have hrest : ∀ l ∈ rest, safeLine l = true :=
          fun l hl => hsafe l (List.mem_cons_of_mem line hl)
        have hline : safeLine line = true := hsafe line (List.mem_cons_self _ _)
        have hsub : ∀ ms : List (List Char), ms.length ≤ rest.length →
            (∀ l ∈ ms, safeLine l = true) →
            ∃ bs, parseBlocksF f1 ms = some bs := by
          intro ms hle hms
          exact (IH ms.length (by omega)).1 ms rfl hms f1 (by omega)
        cases hc : classify line
        case blank =>
          obtain ⟨bs, hbs⟩ := hsub rest (le_refl _) hrest
          exact ⟨bs, by simp only [parseBlocksF, hc]; exact hbs⟩
        case fence =>
          obtain ⟨bs, hbs⟩ := hsub ((rest.dropWhile fun l => !fenceClose l).tail)
            (le_trans (List.tail_sublist _).length_le
              (List.dropWhile_sublist _).length_le)
            (fun l hl => hrest l
              ((List.dropWhile_sublist _).subset ((List.tail_sublist _).subset hl)))
          simp only [parseBlocksF, hc]
          rw [hbs]
          exact ⟨_, rfl⟩
        case heading =>
          obtain ⟨bs, hbs⟩ := hsub rest (le_refl _) hrest
          simp only [parseBlocksF, hc]
          rw [hbs]
          exact ⟨_, rfl⟩
        case bullet =>
          have hbS : isBulletStart line = true := classify_bullet_start hc
          have hitem : isBulletItemLine line = true := by
            have hst := safeLine_stall hline
            simp [stallLine, hbS] at hst
            exact hst
          obtain ⟨bs, hbs⟩ := hsub (rest.dropWhile isBulletItemLine)
            (List.dropWhile_sublist _).length_le
            (fun l hl => hrest l ((List.dropWhile_sublist _).subset hl))
          simp only [parseBlocksF, hc]
          rw [List.dropWhile_cons_of_pos (by simp [hitem]), hbs]
          exact ⟨_, rfl⟩
        case quote =>
          have hq : isQuoteLine line = true :=
            quoteLine_of_pre (classify_quote_pre hc)
          obtain ⟨bs, hbs⟩ := hsub (rest.dropWhile isQuoteLine)
            (List.dropWhile_sublist _).length_le
            (fun l hl => hrest l ((List.dropWhile_sublist _).subset hl))
          simp only [parseBlocksF, hc]
          rw [List.dropWhile_cons_of_pos (by simp [hq]), hbs]
          exact ⟨_, rfl⟩
        case admo =>
          obtain ⟨hsb, hsr⟩ := takeIndentedBody_safe rest hrest
          obtain ⟨nested, hnested⟩ := hsub (takeIndentedBody rest).1
            (takeIndentedBody_len rest).1 hsb
          obtain ⟨bs, hbs⟩ := hsub (takeIndentedBody rest).2
            (takeIndentedBody_len rest).2 hsr
          simp only [parseBlocksF, hc]
          rw [hnested, hbs]
          exact ⟨_, rfl⟩
        case tab =>
          have hw := takeTabRegions_weight rest
          have hrsafe : ∀ r ∈ (takeTabRegions rest).1, ∀ x ∈ r.2,
              safeLine x = true := by
            intro r hr x hx
            rcases (tabLoop_mem rest none).1 r hr x hx with hin | ⟨p, hp, _⟩
            · exact hrest x hin
            · cases hp
          obtain ⟨ts, hts⟩ :=
            (IH (regionsWeight (takeTabRegions rest).1) (by omega)).2
              _ rfl hrsafe f1 (by omega)
          obtain ⟨bs, hbs⟩ := hsub (takeTabRegions rest).2 (by omega)
            (fun l hl => hrest l ((tabLoop_mem rest none).2 l hl))
          simp only [parseBlocksF, hc]
          rw [hts, hbs]
          exact ⟨_, rfl⟩
        case para =>
          obtain ⟨bs, hbs⟩ := hsub (rest.dropWhile fun l => !paragraphBreak l)
            (List.dropWhile_sublist _).length_le
            (fun l hl => hrest l ((List.dropWhile_sublist _).subset hl))
          simp only [parseBlocksF, hc]
          rw [hbs]
          exact ⟨_, rfl⟩
    · intro rs hn hsafe f hf
      obtain ⟨f1, rfl⟩ : ∃ f1, f = f1 + 1 := ⟨f - 1, by omega⟩
      match rs, hn, hsafe, hf with
      | [], hn, hsafe, hf => exact ⟨[], rfl⟩
      | r :: rs0, hn, hsafe, hf =>
        have hwc : regionsWeight (r :: rs0) =
            r.2.length + 1 + regionsWeight rs0 := by
          simp [regionsWeight]
        obtain ⟨bs, hbs⟩ := (IH r.2.length (by omega)).1 r.2 rfl
          (hsafe r (List.mem_cons_self _ _)) f1 (by omega)
        obtain ⟨ts, hts⟩ := (IH (regionsWeight rs0) (by omega)).2 rs0 rfl
          (fun q hq x hx => hsafe q (List.mem_cons_of_mem r hq) x hx)
          f1 (by omega)
        simp only [parseTabsF]
        rw [hbs, hts]
        exact ⟨_, rfl⟩

/-- C1 (amended): parse terminates, consumes the entire input and returns a
Document for every input text all of whose lines are safe — safe meaning
that neither the line nor any of its de-indented descendants starts with a
bullet marker while failing the narrower dash-space continuation test of
the bullet-list parser; on such inputs the canonical fuel is proved
sufficient, and a some result certifies full consumption because the only
completing driver case is the exhausted cursor.  The unamended claim, for
every input string, is refuted by the stalling input of the accompanying
counterexample. -/
theorem C1_totality_on_safe_inputs (text : String)
    (hsafe : ∀ l ∈ splitLines text.data, safeLine l = true) :
    ∃ bs, parse text = some ⟨bs⟩ := by
  obtain ⟨bs, hbs⟩ := (safe_suff (splitLines text.data).length).1
    (splitLines text.data) rfl hsafe ((splitLines text.data).length + 1)
    (by omega)
  exact ⟨bs, by simp only [parse, parseLines]; rw [hbs]; rfl⟩

/-- Witness for C1: the amended totality theorem applied to a concrete
two-line input, the safety hypothesis discharged by evaluation. -/
theorem C1_witness : ∃ bs, parse "# Title\nsome text\n" = some ⟨bs⟩ :=
  C1_totality_on_safe_inputs "# Title\nsome text\n" (by decide)

/-- C10: under the Lark grammar of src/meowz/grammar.py, an admonition or
tab-header line is accepted only when its title is written as a
double-quoted escaped-string literal: every accepted line's title token
begins and ends with a double quote, and the stored title is the token with
all leading and trailing double-quote characters stripped (the Python
strip semantics of the transformer in src/meowz/parser.py); an unquoted
title token is not accepted, as the two concrete rejections show. -/
theorem C10_quoted_titles :
    (∀ (l : List Char) tag tok title,
      larkAdmoHeaderLine l = some (tag, tok, title) →
      (∃ inner, tok = '"' :: inner ++ ['"']) ∧
        title = String.mk (stripQuotesBoth tok)) ∧
    (∀ (l : List Char) tok title,
      larkTabHeaderLine l = some (tok, title) →
      (∃ inner, tok = '"' :: inner ++ ['"']) ∧
        title = String.mk (stripQuotesBoth tok)) ∧
    larkAdmoHeaderLine "!!! note".data = none ∧
    larkTabHeaderLine "=== note".data = none := by
  refine ⟨?_, ?_, rfl, rfl⟩
  · intro l tag tok title h
    unfold larkAdmoHeaderLine at h
    split_ifs at h
    split at h
    case _ cs =>
      split at h
      case _ inner rest =>
        split_ifs at h
        simp only [Option.some.injEq, Prod.mk.injEq] at h
        obtain ⟨htag, htok, htitle⟩ := h
        subst htok
        subst htitle
        exact ⟨⟨_, rfl⟩, rfl⟩
      case _ => cases h
    case _ => cases h
  · intro l tok title h
    unfold larkTabHeaderLine at h
    split_ifs at h
    split at h
    case _ cs =>
      split at h
      case _ inner rest =>
        split_ifs at h
        simp only [Option.some.injEq, Prod.mk.injEq] at h
        obtain ⟨htok, htitle⟩ := h
        subst htok
        subst htitle
        exact ⟨⟨_, rfl⟩, rfl⟩
      case _ => cases h
    case _ => cases h

/-- Witness for C10: the quoted-title theorem applied to one concrete
accepted admonition header line and one concrete accepted tab header line,
the hypotheses discharged by evaluation. -/
theorem C10_witness :
    ((∃ inner, ('"' :: "note".data ++ ['"'] : List Char) =
        '"' :: inner ++ ['"']) ∧
      ("note" : String) =
        String.mk (stripQuotesBoth ('"' :: "note".data ++ ['"']))) ∧
    ((∃ inner, ('"' :: "Tab 1".data ++ ['"'] : List Char) =
        '"' :: inner ++ ['"']) ∧
      ("Tab 1" : String) =
        String.mk (stripQuotesBoth ('"' :: "Tab 1".data ++ ['"']))) :=
  ⟨C10_quoted_titles.1 ("!!! \"note\"".data) "!!!"
      ('"' :: "note".data ++ ['"']) "note" rfl,
    C10_quoted_titles.2.1 ("=== \"Tab 1\"".data)
      ('"' :: "Tab 1".data ++ ['"']) "Tab 1" rfl⟩

end Meowz
